import Mathlib

/-!
Verification of the tf-idf-matcher string matching library.

The library matches query strings against a fixed corpus using character
n-gram TF-IDF weighting and cosine similarity.  This file gives a shallow
embedding of the library's code in Lean and proves the specification claims
about it.

Modelling conventions, stated once here:
- Rust f64 values are modelled as exact rationals.  Every f64 value arising
  at runtime is a rational number, so quantifying over rational-valued
  states subsumes the reachable states; no settled claim depends on
  floating-point rounding of arithmetic.
- Rust String / str values are modelled as Lean String (equivalently a list
  of Char); the tokenizer core works on lists of characters.
- Unicode case folding (char::to_lowercase) and the Unicode whitespace
  predicate (char::is_whitespace) are modelled by their ASCII fragments
  (Char.toLower, Char.isWhitespace); no claim exercises non-ASCII case
  mappings.
-/

/-- Model of Rust char::to_lowercase as used in lib.rs line 114
(chars.extend(word.chars().flat_map(char::to_lowercase))): a character maps
to a list of characters; the ASCII fragment is one-to-one. -/
def charLower (c : Char) : List Char := [c.toLower]

/-- Model of str::split_whitespace (lib.rs lines 102, 109, 153-155):
splits a character list into its maximal runs of non-whitespace characters.
The accumulator holds the current word reversed. -/
def splitWsGo : List Char → List Char → List (List Char)
  | [], acc => if acc.isEmpty then [] else [acc.reverse]
  | c :: cs, acc =>
    if c.isWhitespace then
      if acc.isEmpty then splitWsGo cs [] else acc.reverse :: splitWsGo cs []
    else splitWsGo cs (c :: acc)

/-- The words of a character list, per str::split_whitespace. -/
def splitWs (l : List Char) : List (List Char) := splitWsGo l []

/-- Source lib.rs lines 107-116: the loop (with its first-word flag) that
interleaves a single boundary marker between consecutive lowercased words. -/
def padBody : List (List Char) → List Char
  | [] => []
  | [w] => w
  | w :: v :: ws => w ++ '_' :: padBody (v :: ws)

/-- Source lib.rs lines 104-116: the padded character sequence
_word1_word2..._wordN_ built from the lowercased words of the text. -/
def padChars (text : String) : List Char :=
  '_' :: (padBody ((splitWs text.toList).map (fun w => w.flatMap charLower)) ++ ['_'])

/-- Source lib.rs lines 126-135, loop body: skip the window starting at i
when n exceeds 2 and the slice chars[i+1 .. i+n-1] contains a boundary
marker; otherwise append the window, preceded by a space separator when the
result is non-empty. -/
def ngramStep (chars : List Char) (n : Nat) (result : List Char) (i : Nat) : List Char :=
  if decide (2 < n) && ((chars.drop (i + 1)).take (n - 2)).contains '_' then result
  else if result.isEmpty then result ++ (chars.drop i).take n
  else result ++ ' ' :: (chars.drop i).take n

/-- Source lib.rs lines 118-136: return the empty result when the padded
sequence is shorter than n, else fold the window loop over the offsets
0 .. chars.length - n. -/
def ngramChars (chars : List Char) (n : Nat) : List Char :=
  if chars.length < n then []
  else (List.range (chars.length - n + 1)).foldl (ngramStep chars n) []

/-- Source lib.rs lines 100-137: TFIDFMatcher::text_into_ngrams. -/
def text_into_ngrams (text : String) (n : Nat) : String :=
  String.mk (ngramChars (padChars text) n)

/-- Join a list of words with a single separator character between
consecutive words (used by the spec-side description of the tokenizer). -/
def sepJoin (sep : Char) : List (List Char) → List Char
  | [] => []
  | [w] => w
  | w :: v :: ws => w ++ sep :: sepJoin sep (v :: ws)

/-- Spec-side acceptance test for a width-n window, following the wording of
the claim: a window is rejected exactly when n exceeds 2 and one of its
interior characters (the positions strictly between its first and last
position) is the boundary marker. -/
def acceptWindow (n : Nat) (w : List Char) : Bool :=
  !(decide (2 < n) && ((w.drop 1).take (n - 2)).contains '_')

/-- Spec-side description of the tokenizer on a padded character sequence:
if the sequence has fewer than n characters the result is empty; otherwise
every width-n window is taken at every offset, left to right, the accepted
ones are kept and joined by single spaces. -/
def tokenizerSpec (chars : List Char) (n : Nat) : List Char :=
  if chars.length < n then []
  else
    sepJoin ' '
      (((List.range (chars.length - n + 1)).map (fun i => (chars.drop i).take n)).filter
        (acceptWindow n))

/-- The error type of matcher construction.  Modelled from the spec: the
source propagates linfa's PreprocessingError from fitting; the spec (its
error-handling section) identifies the construction-time failure as the
empty-vocabulary error. -/
inductive PreprocessingError where
  | EmptyVocabulary
deriving DecidableEq, Repr

/-- The tokens of one processed document, as produced by the
split_by_whitespace tokenizer the source installs on the vectorizer
(lib.rs lines 153-155, 166). -/
def docTokens (doc : String) : List String :=
  (splitWs doc.toList).map (fun w => String.mk w)

/-- The distinct tokens occurring across a list of processed documents, in
first-occurrence order: the vocabulary learned at fit time. -/
def distinctTokens (docs : List String) : List String :=
  (docs.flatMap docTokens).dedup

/-- Modelled from the spec: TfIdfVectorizer::fit of the external linfa
crate is not part of this repository.  Per the spec's fitter contract and
error taxonomy, fitting learns the distinct-token vocabulary of the
processed corpus and fails with the empty-vocabulary error exactly when
that vocabulary is empty; otherwise construction proceeds.  The numeric idf
weights (ln ((1+N)/(1+df)) + 1) are irrational-valued and no construction
claim depends on them, so the fit outcome carries the vocabulary only. -/
def fitVocab (docs : List String) : Except PreprocessingError (List String) :=
  if (distinctTokens docs).isEmpty then Except.error PreprocessingError.EmptyVocabulary
  else Except.ok (distinctTokens docs)

/-- Modelled from the spec: the outcome of TFIDFMatcher::new (lib.rs lines
146-177).  The source maps text_into_ngrams over the corpus, fits the
vectorizer on the processed corpus (propagating its error), then transforms
the corpus; per the spec the transform step is total for a successfully
fitted vocabulary, so the outcome of new is the outcome of the fit. -/
def newOutcome (haystack : List String) (ngram_length : Nat) :
    Except PreprocessingError (List String) :=
  fitVocab (haystack.map (fun s => text_into_ngrams s ngram_length))

/-- A single match result from the corpus (lib.rs lines 15-22); the borrowed
str reference is modelled by the string value, the f64 confidence by an
exact rational. -/
structure MatchEntry where
  haystack : String
  confidence : ℚ
  haystack_idx : Nat
deriving DecidableEq, Repr

/-- Container for query results (lib.rs lines 27-32). -/
structure Needle where
  needle : String
  «matches» : List MatchEntry
deriving DecidableEq, Repr

/-- The fitted vectorizer state: the vocabulary (one token per column) and
the per-column idf weights.  The matcher only uses it through transform. -/
structure FittedTfIdfVectorizer where
  vocabulary : List String
  idf : List ℚ
deriving DecidableEq, Repr

/-- The TF-IDF matcher state (lib.rs lines 64-70): the corpus, the fitted
vectorizer, the corpus TF-IDF matrix (sparse rows modelled densely), the
cached row norms and the n-gram length. -/
structure TFIDFMatcher where
  haystack : List String
  fitted : FittedTfIdfVectorizer
  haystack_tfidf : List (List ℚ)
  haystack_norm : List ℚ
  ngram_length : Nat
deriving DecidableEq, Repr

/-- Rounding of f64 to the nearest integer, halves away from zero, the
semantics of Rust f64::round, over exact rationals. -/
def roundHalfAway (q : ℚ) : ℤ :=
  if q < 0 then -⌊-q + 1 / 2⌋ else ⌊q + 1 / 2⌋

/-- Source lib.rs lines 73-76: round a similarity to 2 decimal places. -/
def round_confidence (sim : ℚ) : ℚ :=
  ((roundHalfAway (sim * 100) : ℚ)) / 100

/-- A scored corpus row (lib.rs lines 78-82). -/
structure Scored where
  sim : ℚ
  idx : Nat
deriving DecidableEq, Repr

/-- The transform step of the fitted vectorizer on one processed document
(spec: sparse vector transformer): for each vocabulary column, the raw
count of that token in the document times the column's idf weight.
Modelled from the spec, as the vectorizer lives in the external linfa
crate; the idf weights are carried as the field values of the fitted
state. -/
def transformDoc (f : FittedTfIdfVectorizer) (doc : String) : List ℚ :=
  (f.vocabulary.zip f.idf).map (fun vi => ((docTokens doc).count vi.1 : ℚ) * vi.2)

/-- Dot product of two (dense-modelled) rows. -/
def dotQ (a b : List ℚ) : ℚ := (List.zipWith (fun x y => x * y) a b).sum

/-- Sum of squares of a row, the argument of the L2 norm. -/
def sumSq (a : List ℚ) : ℚ := (a.map (fun x => x * x)).sum

/-- Stand-in for f64::sqrt over rationals, used for the query norm
(normalize, lib.rs lines 53-60).  It is zero exactly on non-positive
inputs, positive on positive inputs and monotone, which is all any settled
claim uses: the claims either treat the norm product abstractly or
quantify over stored norm values, so the numeric value of the square root
is never load-bearing. -/
def sqrtQ (q : ℚ) : ℚ := if q ≤ 0 then 0 else q

/-- The query vector of a needle: transform of its n-gram stream under the
fitted vectorizer (lib.rs lines 193-198 and 270-274). -/
def TFIDFMatcher.needleVec (m : TFIDFMatcher) (needle : String) : List ℚ :=
  transformDoc m.fitted (text_into_ngrams needle m.ngram_length)

/-- The query norm (lib.rs line 200 and line 275). -/
def TFIDFMatcher.qNorm (m : TFIDFMatcher) (needle : String) : ℚ :=
  sqrtQ (sumSq (m.needleVec needle))

/-- The similarity of corpus row j against a needle (lib.rs lines 205-209
and 283-286, the same expression in find and find_many): the dot product
over the product of the query norm and the cached row norm, with the
whole similarity set to 0 when that denominator is 0. -/
def TFIDFMatcher.simAt (m : TFIDFMatcher) (needle : String) (j : Nat) : ℚ :=
  let dot_val := dotQ (m.haystack_tfidf.getD j []) (m.needleVec needle)
  let denom := m.qNorm needle * m.haystack_norm.getD j 0
  if denom = 0 then 0 else dot_val / denom

/-- The enumerated similarity list over all corpus rows (lib.rs lines
201-211): row indices paired with their similarity. -/
def TFIDFMatcher.similarities (m : TFIDFMatcher) (needle : String) : List (Nat × ℚ) :=
  (List.range m.haystack_tfidf.length).map (fun j => (j, m.simAt needle j))

/-- The descending-similarity order on scored pairs used by find's
selection (the comparator b.1.partial_cmp(a.1) at lib.rs lines 215-219). -/
def simGE (a b : Nat × ℚ) : Prop := b.2 ≤ a.2

instance : DecidableRel simGE := fun a b => inferInstanceAs (Decidable (b.2 ≤ a.2))

instance : IsTotal (Nat × ℚ) simGE := ⟨fun a b => le_total b.2 a.2⟩

instance : IsTrans (Nat × ℚ) simGE := ⟨fun _ _ _ h1 h2 => le_trans h2 h1⟩

/-- The match entry built from a scored pair (lib.rs lines 222-226): the
corpus string at the index, the rounded similarity, and the index. -/
def entryOf (m : TFIDFMatcher) (p : Nat × ℚ) : MatchEntry :=
  { haystack := m.haystack.getD p.1 "", confidence := round_confidence p.2,
    haystack_idx := p.1 }

/-- Source lib.rs lines 188-232: TFIDFMatcher::find.  The source selects
the k pairs of largest similarity with select_nth_unstable_by and then
sorts them descending; this is modelled value-faithfully by a full
descending sort followed by take k (the order among exactly tied
similarities is unspecified in the source - unstable selection - and is
instantiated here by a stable sort). -/
def TFIDFMatcher.find (m : TFIDFMatcher) (needle : String) (top_k : Nat) : Needle :=
  let similarities := m.similarities needle
  let k := min top_k similarities.length
  let «matches» :=
    if 0 < k then ((similarities.insertionSort simGE).take k).map (entryOf m)
    else []
  { needle := needle, «matches» := «matches» }

/-- Push a scored entry onto the heap, modelled as a list kept ascending by
similarity (the min-heap view of BinaryHeap with the reversed Ord of
Scored, lib.rs lines 86-91): the position among exactly tied similarities
is unspecified in the source and the model inserts after them. -/
def heapPush : List Scored → Scored → List Scored
  | [], e => [e]
  | x :: xs, e => if e.sim < x.sim then e :: x :: xs else x :: heapPush xs e

/-- One iteration of find_many's scan (lib.rs lines 283-295): push while
the heap holds fewer than top_k entries, otherwise replace the minimum
exactly when the new similarity strictly exceeds it. -/
def heapStep (top_k : Nat) (heap : List Scored) (x : Nat × ℚ) : List Scored :=
  if heap.length < top_k then heapPush heap (Scored.mk x.2 x.1)
  else
    match heap with
    | [] => []
    | min_entry :: rest =>
      if min_entry.sim < x.2 then heapPush rest (Scored.mk x.2 x.1) else min_entry :: rest

/-- The heap left by find_many's scan over the similarity list. -/
def TFIDFMatcher.heapFor (m : TFIDFMatcher) (needle : String) (top_k : Nat) : List Scored :=
  (m.similarities needle).foldl (heapStep top_k) []

/-- Source lib.rs lines 278-307, one needle of find_many: scan all rows
maintaining the bounded min-heap, then drain it in descending similarity
order (into_sorted_vec under the reversed Ord; the ascending heap list is
reversed) into rounded match entries. -/
def TFIDFMatcher.findManyOne (m : TFIDFMatcher) (needle : String) (top_k : Nat) : Needle :=
  { needle := needle,
    «matches» := (m.heapFor needle top_k).reverse.map
      (fun s => entryOf m (s.idx, s.sim)) }

/-- Source lib.rs lines 264-311: TFIDFMatcher::find_many.  The source
batches the transform over all needles and then scores each needle
independently; per the spec's transformer contract the batch transform is
row-independent, so each needle's vector and norm are those of the single
transform and the batch is the per-needle map. -/
def TFIDFMatcher.find_many (m : TFIDFMatcher) (needles : List String) (top_k : Nat) :
    List Needle :=
  needles.map (fun needle => m.findManyOne needle top_k)

/-- The ascending-similarity order maintained inside the heap model. -/
def simLE (a b : Scored) : Prop := a.sim ≤ b.sim

/-- Append a window to the result with the space separator the window loop
inserts before every window but the first (lib.rs lines 131-134). -/
def joinApp (res w : List Char) : List Char :=
  if res.isEmpty then res ++ w else res ++ ' ' :: w

/-- The window loop body expressed on the window itself: append the window
when accepted, keep the result unchanged when rejected. -/
def stepW (n : Nat) (res : List Char) (w : List Char) : List Char :=
  if acceptWindow n w then joinApp res w else res

/-- A small concrete matcher used to witness the claims on concrete inputs:
corpus with two entries, bigram vocabulary, arbitrary rational weights. -/
def mEx : TFIDFMatcher :=
  { haystack := ["aa", "ab"],
    fitted := { vocabulary := ["_a", "a_", "ab", "b_", "aa"], idf := [1, 1, 1, 1, 2] },
    haystack_tfidf := [[1, 1, 0, 0, 2], [1, 0, 1, 1, 0]],
    haystack_norm := [2, 2],
    ngram_length := 2 }

/-- C2: the tokenizer reproduces the spec's example outputs, including the
single-character input with n equal to 2. -/
theorem claim_C2_tokenizer_examples :
    text_into_ngrams "abcde" 2 = "_a ab bc cd de e_"
    ∧ text_into_ngrams "abc de" 2 = "_a ab bc c_ _d de e_"
    ∧ text_into_ngrams "lets get rusty" 3 = "_le let ets ts_ _ge get et_ _ru rus ust sty ty_"
    ∧ text_into_ngrams "a" 2 = "_a a_" := by
  refine ⟨by decide, by decide, by decide, by decide⟩

lemma window_interior (l : List Char) (i n : Nat) :
    (l.drop (i + 1)).take (n - 2) = (((l.drop i).take n).drop 1).take (n - 2) := by
  rw [List.drop_take, List.take_take, List.drop_drop]
  congr 1
  omega

lemma ngramStep_eq (chars : List Char) (n : Nat) (res : List Char) (i : Nat) :
    ngramStep chars n res i = stepW n res ((chars.drop i).take n) := by
  unfold ngramStep stepW acceptWindow joinApp
  rw [window_interior]
  cases hA : (decide (2 < n) && ((((chars.drop i).take n).drop 1).take (n - 2)).contains '_') <;>
    simp [hA]

lemma sepJoin_cons (sep : Char) (w : List Char) :
    ∀ ws : List (List Char), sepJoin sep (w :: ws) = w ++ ws.flatMap (fun v => sep :: v)
  | [] => by simp [sepJoin]
  | v :: vs => by
    rw [sepJoin, sepJoin_cons sep v vs]
    simp

lemma foldl_stepW_of_ne_nil (n : Nat) :
    ∀ (ws : List (List Char)) (res : List Char), res ≠ [] →
      ws.foldl (stepW n) res = res ++ (ws.filter (acceptWindow n)).flatMap (fun w => ' ' :: w)
  | [], res, _ => by simp
  | w :: ws, res, hres => by
    rw [List.foldl_cons]
    by_cases hw : acceptWindow n w
    · have hstep : stepW n res w = res ++ ' ' :: w := by
        unfold stepW joinApp
        simp [hw, List.isEmpty_iff, hres]
      rw [hstep, foldl_stepW_of_ne_nil n ws (res ++ ' ' :: w) (by simp)]
      simp [List.filter_cons, hw]
    · have hstep : stepW n res w = res := by unfold stepW; simp [hw]
      rw [hstep, foldl_stepW_of_ne_nil n ws res hres]
      simp [List.filter_cons, hw]

lemma foldl_stepW_nil (n : Nat) :
    ∀ ws : List (List Char), (∀ w ∈ ws, acceptWindow n w → w ≠ []) →
      ws.foldl (stepW n) [] = sepJoin ' ' (ws.filter (acceptWindow n))
  | [], _ => by simp [sepJoin]
  | w :: ws, h => by
    rw [List.foldl_cons]
    by_cases hw : acceptWindow n w
    · have hwne : w ≠ [] := h w (by simp) hw
      have hstep : stepW n ([] : List Char) w = w := by
        unfold stepW joinApp; simp [hw]
      rw [hstep, foldl_stepW_of_ne_nil n ws w hwne]
      rw [List.filter_cons, if_pos hw, sepJoin_cons]
    · have hstep : stepW n ([] : List Char) w = ([] : List Char) := by
        unfold stepW; simp [hw]
      rw [hstep, foldl_stepW_nil n ws (fun v hv => h v (by simp [hv])),
        List.filter_cons, if_neg hw]

lemma ngramChars_eq_spec (chars : List Char) (n : Nat) (hn : 1 ≤ n) :
    ngramChars chars n = tokenizerSpec chars n := by
  unfold ngramChars tokenizerSpec
  by_cases hlen : chars.length < n
  · simp [hlen]
  · rw [if_neg hlen, if_neg hlen]
    have hfn : ngramStep chars n = fun res i => stepW n res ((chars.drop i).take n) :=
      funext fun res => funext fun i => ngramStep_eq chars n res i
    have hfold : (List.range (chars.length - n + 1)).foldl (ngramStep chars n) [] =
        ((List.range (chars.length - n + 1)).map (fun i => (chars.drop i).take n)).foldl
          (stepW n) [] := by
      rw [hfn, List.foldl_map]
    rw [hfold]
    refine foldl_stepW_nil n _ ?_
    intro w hw _
    rcases List.mem_map.mp hw with ⟨i, hi, rfl⟩
    have hi2 : i < chars.length - n + 1 := List.mem_range.mp hi
    have hlw : ((chars.drop i).take n).length = n := by
      rw [List.length_take, List.length_drop]
      omega
    intro hnil
    rw [hnil] at hlw
    simp at hlw
    omega

/-- C3 (amended with n at least 1, the spec's domain for the n-gram
length): after lowercasing and padding, the tokenizer returns the empty
token sequence when the padded sequence has fewer than n characters, and
otherwise joins by single spaces every width-n window in left-to-right
order, omitting a window exactly when n exceeds 2 and one of its interior
characters is the boundary marker. -/
theorem claim_C3_tokenizer_description (text : String) (n : Nat) (hn : 1 ≤ n) :
    text_into_ngrams text n = String.mk (tokenizerSpec (padChars text) n) := by
  unfold text_into_ngrams
  rw [ngramChars_eq_spec _ _ hn]

/-- Witness for C3 at the concrete input "abcde" with n equal to 2. -/
theorem claim_C3_witness :
    text_into_ngrams "abcde" 2 = String.mk (tokenizerSpec (padChars "abcde") 2) :=
  claim_C3_tokenizer_description "abcde" 2 (by decide)

/-- Counterexample to C3 as stated, at n equal to 0: the claim quantifies
over every n and predicts, for n equal to 0, the space-joined sequence of
all width-0 windows (three separator spaces for the padded sequence of
"a"), while the window loop of the code never inserts a separator because
its result string never becomes non-empty, so the code returns the empty
string. -/
theorem claim_C3_counterexample :
    text_into_ngrams "a" 0 ≠ String.mk (tokenizerSpec (padChars "a") 0) := by
  decide

lemma text_into_ngrams_of_short (s : String) (n : Nat) (h : (padChars s).length < n) :
    text_into_ngrams s n = "" := by
  unfold text_into_ngrams ngramChars
  rw [if_pos h]

lemma distinctTokens_eq_nil_iff (docs : List String) :
    distinctTokens docs = [] ↔ ∀ d ∈ docs, docTokens d = [] := by
  unfold distinctTokens
  rw [List.dedup_eq_nil, List.flatMap_eq_nil_iff]

lemma newOutcome_error_iff (corpus : List String) (n : Nat) :
    newOutcome corpus n = Except.error PreprocessingError.EmptyVocabulary ↔
      distinctTokens (corpus.map (fun s => text_into_ngrams s n)) = [] := by
  unfold newOutcome fitVocab
  by_cases h : (distinctTokens (corpus.map fun s => text_into_ngrams s n)).isEmpty
  · simp only [if_pos h]
    simp [List.isEmpty_iff.mp h]
  · simp only [if_neg h]
    constructor
    · intro hcontra
      exact absurd hcontra (by simp)
    · intro hnil
      exact absurd (List.isEmpty_iff.mpr hnil) h

/-- C4: construction fails with the empty-vocabulary error, producing no
matcher, exactly when the processed corpus yields zero distinct n-gram
tokens; in particular for an empty corpus and for a corpus whose every
entry's padded character sequence is shorter than the n-gram length.
The fit step lives in the external linfa crate and is modelled from the
spec; the tokenization feeding it is the source's. -/
theorem claim_C4_empty_vocabulary (corpus : List String) (n : Nat) :
    (newOutcome corpus n = Except.error PreprocessingError.EmptyVocabulary ↔
      distinctTokens (corpus.map (fun s => text_into_ngrams s n)) = [])
    ∧ (corpus = [] → newOutcome corpus n = Except.error PreprocessingError.EmptyVocabulary)
    ∧ ((∀ s ∈ corpus, (padChars s).length < n) →
        newOutcome corpus n = Except.error PreprocessingError.EmptyVocabulary) := by
  refine ⟨newOutcome_error_iff corpus n, ?_, ?_⟩
  · rintro rfl
    rw [newOutcome_error_iff]
    simp [distinctTokens]
  · intro hshort
    rw [newOutcome_error_iff, distinctTokens_eq_nil_iff]
    intro d hd
    rcases List.mem_map.mp hd with ⟨s, hs, rfl⟩
    rw [text_into_ngrams_of_short s n (hshort s hs)]
    rfl

/-- Witness for C4: the corpus with the single entry "ab" and n-gram length
5 has every padded entry of length 4, so construction fails. -/
theorem claim_C4_witness :
    newOutcome ["ab"] 5 = Except.error PreprocessingError.EmptyVocabulary :=
  (claim_C4_empty_vocabulary ["ab"] 5).2.2 (by decide)

lemma splitWsGo_all_ws : ∀ l : List Char, (∀ c ∈ l, c.isWhitespace = true) →
    splitWsGo l [] = []
  | [], _ => rfl
  | c :: cs, h => by
    have hc : c.isWhitespace = true := h c (by simp)
    rw [splitWsGo, if_pos hc]
    simp only [List.isEmpty_nil, if_true]
    exact splitWsGo_all_ws cs (fun d hd => h d (by simp [hd]))

lemma padChars_all_ws (text : String) (h : ∀ c ∈ text.toList, c.isWhitespace = true) :
    padChars text = ['_', '_'] := by
  unfold padChars splitWs
  rw [splitWsGo_all_ws text.toList h]
  rfl

lemma text_into_ngrams_pad2 (s : String) (hs : padChars s = ['_', '_']) :
    text_into_ngrams s 1 = "_ _" ∧ text_into_ngrams s 2 = "__" := by
  constructor <;> (unfold text_into_ngrams; rw [hs]) <;> decide

/-- C9 (amended: the n-gram length is between 1 and 2 and the corpus is
non-empty): a whitespace-only text still pads to the two-character boundary
sequence, tokenizes with n at most 2 to a non-empty token stream made only
of boundary markers, and a non-empty corpus of whitespace-only entries
constructs without the empty-vocabulary error.  The fit step is modelled
from the spec; the tokenization is the source's. -/
theorem claim_C9_whitespace_padding (text : String) (corpus : List String) (n : Nat)
    (htext : ∀ c ∈ text.toList, c.isWhitespace = true)
    (hn1 : 1 ≤ n) (hn2 : n ≤ 2) (hne : corpus ≠ [])
    (hcorp : ∀ s ∈ corpus, ∀ c ∈ s.toList, c.isWhitespace = true) :
    padChars text = ['_', '_']
    ∧ text_into_ngrams text n ≠ ""
    ∧ (∀ t ∈ docTokens (text_into_ngrams text n), ∀ c ∈ t.toList, c = '_')
    ∧ ∃ vocab, newOutcome corpus n = Except.ok vocab := by
  have hpad := padChars_all_ws text htext
  have hn : n = 1 ∨ n = 2 := by omega
  refine ⟨hpad, ?_, ?_, ?_⟩
  · rcases hn with rfl | rfl
    · rw [(text_into_ngrams_pad2 text hpad).1]; decide
    · rw [(text_into_ngrams_pad2 text hpad).2]; decide
  · rcases hn with rfl | rfl
    · rw [(text_into_ngrams_pad2 text hpad).1]; decide
    · rw [(text_into_ngrams_pad2 text hpad).2]; decide
  · rcases corpus with _ | ⟨s, rest⟩
    · exact absurd rfl hne
    · have hspad := padChars_all_ws s (hcorp s (by simp))
      have hd : docTokens (text_into_ngrams s n) ≠ [] := by
        rcases hn with rfl | rfl
        · rw [(text_into_ngrams_pad2 s hspad).1]; decide
        · rw [(text_into_ngrams_pad2 s hspad).2]; decide
      have hvocab : ¬(distinctTokens ((s :: rest).map (fun t => text_into_ngrams t n))).isEmpty := by
        intro hcontra
        have hnil := (distinctTokens_eq_nil_iff _).mp (List.isEmpty_iff.mp hcontra)
        exact hd (hnil (text_into_ngrams s n) (by simp))
      unfold newOutcome fitVocab
      rw [if_neg hvocab]
      exact ⟨_, rfl⟩

/-- Witness for C9 at the whitespace-only text " " and the corpus with the
single empty-string entry, with n-gram length 2. -/
theorem claim_C9_witness :
    ∃ vocab, newOutcome [""] 2 = Except.ok vocab :=
  (claim_C9_whitespace_padding " " [""] 2 (by decide) (by decide) (by decide)
    (by decide) (by decide)).2.2.2

/-- Counterexample to C9 as stated: the claim asserts a non-empty token
stream and successful construction for every n-gram length at most 2, but
at n equal to 0 the empty text (vacuously whitespace-only) tokenizes to the
empty string and construction on the corpus of one empty entry fails with
the empty-vocabulary error. -/
theorem claim_C9_counterexample :
    text_into_ngrams "" 0 = ""
    ∧ newOutcome [""] 0 = Except.error PreprocessingError.EmptyVocabulary := by
  refine ⟨by decide, by rfl⟩

lemma roundHalfAway_mono {x y : ℚ} (h : x ≤ y) : roundHalfAway x ≤ roundHalfAway y := by
  unfold roundHalfAway
  by_cases hx : x < 0 <;> by_cases hy : y < 0
  · rw [if_pos hx, if_pos hy]
    exact neg_le_neg (Int.floor_mono (by linarith))
  · rw [if_pos hx, if_neg hy]
    have h1 : (0 : ℤ) ≤ ⌊-x + 1 / 2⌋ := Int.floor_nonneg.mpr (by linarith)
    have h2 : (0 : ℤ) ≤ ⌊y + 1 / 2⌋ := Int.floor_nonneg.mpr (by push_neg at hy; linarith)
    omega
  · exact absurd (lt_of_le_of_lt h hy) hx
  · rw [if_neg hx, if_neg hy]
    exact Int.floor_mono (by linarith)

lemma round_confidence_mono {x y : ℚ} (h : x ≤ y) :
    round_confidence x ≤ round_confidence y := by
  unfold round_confidence
  have hm : roundHalfAway (x * 100) ≤ roundHalfAway (y * 100) :=
    roundHalfAway_mono (by linarith)
  have hc : ((roundHalfAway (x * 100) : ℤ) : ℚ) ≤ ((roundHalfAway (y * 100) : ℤ) : ℚ) :=
    Int.cast_le.mpr hm
  linarith

lemma similarities_length (m : TFIDFMatcher) (needle : String) :
    (m.similarities needle).length = m.haystack_tfidf.length := by
  simp [TFIDFMatcher.similarities]

lemma mem_similarities {m : TFIDFMatcher} {needle : String} {p : Nat × ℚ}
    (hp : p ∈ m.similarities needle) :
    p.1 < m.haystack_tfidf.length ∧ p.2 = m.simAt needle p.1 := by
  unfold TFIDFMatcher.similarities at hp
  rcases List.mem_map.mp hp with ⟨j, hj, rfl⟩
  exact ⟨List.mem_range.mp hj, rfl⟩

lemma similarities_mem (m : TFIDFMatcher) (needle : String) {j : Nat}
    (hj : j < m.haystack_tfidf.length) :
    (j, m.simAt needle j) ∈ m.similarities needle := by
  unfold TFIDFMatcher.similarities
  exact List.mem_map.mpr ⟨j, List.mem_range.mpr hj, rfl⟩

lemma find_matches_eq (m : TFIDFMatcher) (needle : String) (top_k : Nat) :
    (m.find needle top_k).«matches» =
      (((m.similarities needle).insertionSort simGE).take
        (min top_k (m.similarities needle).length)).map (entryOf m) := by
  unfold TFIDFMatcher.find
  by_cases hk : 0 < min top_k (m.similarities needle).length
  · simp only [if_pos hk]
  · have hzero : min top_k (m.similarities needle).length = 0 := by omega
    simp [hzero]

lemma mem_heapPush {h : List Scored} {e a : Scored} :
    a ∈ heapPush h e ↔ a ∈ h ∨ a = e := by
  induction h with
  | nil => simp [heapPush]
  | cons x xs ih =>
    unfold heapPush
    by_cases hc : e.sim < x.sim
    · rw [if_pos hc]
      simp only [List.mem_cons]
      tauto
    · rw [if_neg hc]
      simp only [List.mem_cons, ih]
      tauto

lemma length_heapPush (h : List Scored) (e : Scored) :
    (heapPush h e).length = h.length + 1 := by
  induction h with
  | nil => rfl
  | cons x xs ih =>
    unfold heapPush
    by_cases hc : e.sim < x.sim
    · rw [if_pos hc]; simp
    · rw [if_neg hc]; simp [ih]

lemma pairwise_heapPush {h : List Scored} {e : Scored} (hs : h.Pairwise simLE) :
    (heapPush h e).Pairwise simLE := by
  induction h with
  | nil => simp [heapPush]
  | cons x xs ih =>
    rw [List.pairwise_cons] at hs
    obtain ⟨hx, hxs⟩ := hs
    unfold heapPush
    by_cases hc : e.sim < x.sim
    · rw [if_pos hc, List.pairwise_cons]
      refine ⟨?_, List.pairwise_cons.mpr ⟨hx, hxs⟩⟩
      intro b hb
      rcases List.mem_cons.mp hb with rfl | hb'
      · exact le_of_lt hc
      · exact le_trans (le_of_lt hc) (hx b hb')
    · rw [if_neg hc, List.pairwise_cons]
      refine ⟨?_, ih hxs⟩
      intro b hb
      rcases mem_heapPush.mp hb with hb' | rfl
      · exact hx b hb'
      · exact le_of_not_lt hc

lemma heapStep_inv (k : Nat) (h : List Scored) (seen : List (Nat × ℚ)) (x : Nat × ℚ)
    (i1 : h.Pairwise simLE)
    (i2 : h.length = min k seen.length)
    (i3 : ∀ s ∈ h, (s.idx, s.sim) ∈ seen)
    (i4 : h.length < k → ∀ y ∈ seen, Scored.mk y.2 y.1 ∈ h)
    (i5 : ∀ y ∈ seen, Scored.mk y.2 y.1 ∈ h ∨ ∀ s ∈ h, y.2 ≤ s.sim) :
    (heapStep k h x).Pairwise simLE
    ∧ (heapStep k h x).length = min k (seen.length + 1)
    ∧ (∀ s ∈ heapStep k h x, (s.idx, s.sim) ∈ seen ++ [x])
    ∧ ((heapStep k h x).length < k → ∀ y ∈ seen ++ [x], Scored.mk y.2 y.1 ∈ heapStep k h x)
    ∧ (∀ y ∈ seen ++ [x], Scored.mk y.2 y.1 ∈ heapStep k h x
        ∨ ∀ s ∈ heapStep k h x, y.2 ≤ s.sim) := by
  by_cases hlt : h.length < k
  · have hstep : heapStep k h x = heapPush h (Scored.mk x.2 x.1) := by
      unfold heapStep; rw [if_pos hlt]
    rw [hstep]
    have hall : ∀ y ∈ seen, Scored.mk y.2 y.1 ∈ h := i4 hlt
    refine ⟨pairwise_heapPush i1, ?_, ?_, ?_, ?_⟩
    · rw [length_heapPush]
      omega
    · intro s hs
      rcases mem_heapPush.mp hs with hs' | rfl
      · exact List.mem_append_left _ (i3 s hs')
      · exact List.mem_append_right _ (by simp)
    · intro _ y hy
      rcases List.mem_append.mp hy with hy' | hy'
      · exact mem_heapPush.mpr (Or.inl (hall y hy'))
      · rw [List.mem_singleton.mp hy']
        exact mem_heapPush.mpr (Or.inr rfl)
    · intro y hy
      rcases List.mem_append.mp hy with hy' | hy'
      · exact Or.inl (mem_heapPush.mpr (Or.inl (hall y hy')))
      · rw [List.mem_singleton.mp hy']
        exact Or.inl (mem_heapPush.mpr (Or.inr rfl))
  · rcases h with _ | ⟨me, rest⟩
    · have hk : k = 0 := by simp at hlt; omega
      have hstep : heapStep k ([] : List Scored) x = [] := by
        unfold heapStep; rw [if_neg hlt]
      rw [hstep]
      refine ⟨List.Pairwise.nil, by omega, by simp, by omega, ?_⟩
      intro y _
      exact Or.inr (by simp)
    · have hlen : (me :: rest).length = k := by
        have h2 := i2
        simp only [List.length_cons] at hlt h2 ⊢
        omega
      have hseen : k ≤ seen.length := by
        have h2 := i2
        omega
      have hme : ∀ s ∈ rest, me.sim ≤ s.sim := (List.pairwise_cons.mp i1).1
      by_cases hms : me.sim < x.2
      · have hstep : heapStep k (me :: rest) x = heapPush rest (Scored.mk x.2 x.1) := by
          unfold heapStep; rw [if_neg hlt]; simp only [if_pos hms]
        rw [hstep]
        refine ⟨pairwise_heapPush (List.pairwise_cons.mp i1).2, ?_, ?_, ?_, ?_⟩
        · rw [length_heapPush]
          simp only [List.length_cons] at hlen
          omega
        · intro s hs
          rcases mem_heapPush.mp hs with hs' | rfl
          · exact List.mem_append_left _ (i3 s (List.mem_cons_of_mem _ hs'))
          · exact List.mem_append_right _ (by simp)
        · intro hcon
          rw [length_heapPush] at hcon
          simp only [List.length_cons] at hlen
          omega
        · intro y hy
          rcases List.mem_append.mp hy with hy' | hy'
          · rcases i5 y hy' with hin | hub
            · rcases List.mem_cons.mp hin with hyme | hin'
              · refine Or.inr ?_
                intro s hs
                have hy2 : y.2 = me.sim := congrArg Scored.sim hyme
                rcases mem_heapPush.mp hs with hs' | rfl
                · rw [hy2]; exact hme s hs'
                · rw [hy2]; exact le_of_lt hms
              · exact Or.inl (mem_heapPush.mpr (Or.inl hin'))
            · refine Or.inr ?_
              intro s hs
              rcases mem_heapPush.mp hs with hs' | rfl
              · exact hub s (List.mem_cons_of_mem _ hs')
              · exact le_trans (hub me (by simp)) (le_of_lt hms)
          · rw [List.mem_singleton.mp hy']
            exact Or.inl (mem_heapPush.mpr (Or.inr rfl))
      · have hstep : heapStep k (me :: rest) x = me :: rest := by
          unfold heapStep; rw [if_neg hlt]; simp only [if_neg hms]
        rw [hstep]
        refine ⟨i1, by omega, ?_, by omega, ?_⟩
        · intro s hs
          exact List.mem_append_left _ (i3 s hs)
        · intro y hy
          rcases List.mem_append.mp hy with hy' | hy'
          · exact i5 y hy'
          · rw [List.mem_singleton.mp hy']
            refine Or.inr ?_
            intro s hs
            rcases List.mem_cons.mp hs with rfl | hs'
            · exact le_of_not_lt hms
            · exact le_trans (le_of_not_lt hms) (hme s hs')

lemma heapFold_inv (k : Nat) :
    ∀ (xs seen : List (Nat × ℚ)) (h : List Scored),
      h.Pairwise simLE →
      h.length = min k seen.length →
      (∀ s ∈ h, (s.idx, s.sim) ∈ seen) →
      (h.length < k → ∀ y ∈ seen, Scored.mk y.2 y.1 ∈ h) →
      (∀ y ∈ seen, Scored.mk y.2 y.1 ∈ h ∨ ∀ s ∈ h, y.2 ≤ s.sim) →
      (xs.foldl (heapStep k) h).Pairwise simLE
        ∧ (xs.foldl (heapStep k) h).length = min k (seen.length + xs.length)
        ∧ (∀ s ∈ xs.foldl (heapStep k) h, (s.idx, s.sim) ∈ seen ++ xs)
        ∧ (∀ y ∈ seen ++ xs, Scored.mk y.2 y.1 ∈ xs.foldl (heapStep k) h
            ∨ ∀ s ∈ xs.foldl (heapStep k) h, y.2 ≤ s.sim)
  | [], seen, h => by
    intro i1 i2 i3 _ i5
    simp only [List.foldl_nil, List.append_nil, List.length_nil, Nat.add_zero]
    exact ⟨i1, i2, i3, i5⟩
  | x :: xs, seen, h => by
    intro i1 i2 i3 i4 i5
    rw [List.foldl_cons]
    obtain ⟨j1, j2, j3, j4, j5⟩ := heapStep_inv k h seen x i1 i2 i3 i4 i5
    obtain ⟨r1, r2, r3, r4⟩ :=
      heapFold_inv k xs (seen ++ [x]) (heapStep k h x) j1 (by simpa using j2) j3 j4 j5
    refine ⟨r1, ?_, ?_, ?_⟩
    · rw [r2]
      simp only [List.length_append, List.length_cons, List.length_nil]
      omega
    · intro s hs
      have := r3 s hs
      simpa [List.append_assoc] using this
    · intro y hy
      have hy' : y ∈ (seen ++ [x]) ++ xs := by simpa [List.append_assoc] using hy
      exact r4 y hy'

lemma heapFold_spec (k : Nat) (xs : List (Nat × ℚ)) :
    (xs.foldl (heapStep k) []).Pairwise simLE
    ∧ (xs.foldl (heapStep k) []).length = min k xs.length
    ∧ (∀ s ∈ xs.foldl (heapStep k) [], (s.idx, s.sim) ∈ xs)
    ∧ (∀ y ∈ xs, Scored.mk y.2 y.1 ∈ xs.foldl (heapStep k) []
        ∨ ∀ s ∈ xs.foldl (heapStep k) [], y.2 ≤ s.sim) := by
  have h := heapFold_inv k xs [] [] List.Pairwise.nil (by simp) (by simp) (by simp) (by simp)
  simpa using h

/-- C5: every successful find or find_many call returns, per query, exactly
min(top_k, corpus_size) match entries; top_k of 0 gives the empty list and
top_k at least the corpus size gives exactly corpus_size entries.  The
hypothesis is the construction invariant that the corpus matrix has one row
per corpus entry. -/
theorem claim_C5_result_count (m : TFIDFMatcher)
    (h1 : m.haystack_tfidf.length = m.haystack.length)
    (needle : String) (needles : List String) (top_k : Nat) :
    (m.find needle top_k).«matches».length = min top_k m.haystack.length
    ∧ (top_k = 0 → (m.find needle top_k).«matches» = [])
    ∧ (m.haystack.length ≤ top_k →
        (m.find needle top_k).«matches».length = m.haystack.length)
    ∧ (∀ nd ∈ m.find_many needles top_k,
        nd.«matches».length = min top_k m.haystack.length) := by
  have hlenS : ((m.similarities needle).insertionSort simGE).length
      = (m.similarities needle).length :=
    (List.perm_insertionSort simGE _).length_eq
  have hsim : (m.similarities needle).length = m.haystack.length := by
    rw [similarities_length, h1]
  have hmain : (m.find needle top_k).«matches».length = min top_k m.haystack.length := by
    rw [find_matches_eq, List.length_map, List.length_take, hlenS, hsim]
    omega
  refine ⟨hmain, ?_, ?_, ?_⟩
  · intro hk
    subst hk
    have h0 := hmain
    simp only [Nat.zero_min] at h0
    exact List.length_eq_zero.mp h0
  · intro hk
    rw [hmain]
    omega
  · intro nd hnd
    rcases List.mem_map.mp hnd with ⟨q, _, rfl⟩
    show ((m.heapFor q top_k).reverse.map (fun s => entryOf m (s.idx, s.sim))).length = _
    rw [List.length_map, List.length_reverse]
    unfold TFIDFMatcher.heapFor
    rw [(heapFold_spec top_k (m.similarities q)).2.1, similarities_length, h1]

/-- C6: within every returned Needle, of find as well as of find_many, the
confidence values are non-increasing along the match list. -/
theorem claim_C6_descending_confidence (m : TFIDFMatcher) (needle : String)
    (needles : List String) (top_k : Nat) :
    ((m.find needle top_k).«matches».map MatchEntry.confidence).Pairwise (fun a b => b ≤ a)
    ∧ (∀ nd ∈ m.find_many needles top_k,
        (nd.«matches».map MatchEntry.confidence).Pairwise (fun a b => b ≤ a)) := by
  constructor
  · rw [find_matches_eq, List.map_map, List.pairwise_map]
    have hsorted : ((m.similarities needle).insertionSort simGE).Pairwise simGE :=
      List.sorted_insertionSort simGE _
    have htake := List.Pairwise.sublist
      (List.take_sublist (min top_k (m.similarities needle).length)
        ((m.similarities needle).insertionSort simGE)) hsorted
    refine htake.imp ?_
    intro p q hpq
    exact round_confidence_mono hpq
  · intro nd hnd
    rcases List.mem_map.mp hnd with ⟨q, _, rfl⟩
    show ((((m.heapFor q top_k).reverse.map (fun s => entryOf m (s.idx, s.sim))).map
      MatchEntry.confidence)).Pairwise (fun a b => b ≤ a)
    rw [List.map_map, List.pairwise_map, List.pairwise_reverse]
    have hheap : (m.heapFor q top_k).Pairwise simLE :=
      (heapFold_spec top_k (m.similarities q)).1
    refine hheap.imp ?_
    intro a b hab
    exact round_confidence_mono hab

/-- C10: every returned match entry, of find as well as of find_many,
carries a haystack index below the corpus length, and its haystack string
is the corpus entry at that index.  The hypothesis is the construction
invariant that the corpus matrix has one row per corpus entry. -/
theorem claim_C10_valid_indices (m : TFIDFMatcher)
    (h1 : m.haystack_tfidf.length = m.haystack.length)
    (needle : String) (needles : List String) (top_k : Nat) :
    (∀ e ∈ (m.find needle top_k).«matches»,
      e.haystack_idx < m.haystack.length ∧ e.haystack = m.haystack.getD e.haystack_idx "")
    ∧ (∀ nd ∈ m.find_many needles top_k, ∀ e ∈ nd.«matches»,
      e.haystack_idx < m.haystack.length
        ∧ e.haystack = m.haystack.getD e.haystack_idx "") := by
  constructor
  · intro e he
    rw [find_matches_eq] at he
    rcases List.mem_map.mp he with ⟨p, hp, rfl⟩
    have hpS : p ∈ (m.similarities needle).insertionSort simGE := List.mem_of_mem_take hp
    have hpsims : p ∈ m.similarities needle :=
      (List.perm_insertionSort simGE (m.similarities needle)).mem_iff.mp hpS
    have hidx := (mem_similarities hpsims).1
    rw [h1] at hidx
    exact ⟨hidx, rfl⟩
  · intro nd hnd e he
    rcases List.mem_map.mp hnd with ⟨q, _, rfl⟩
    have he' : e ∈ (m.heapFor q top_k).reverse.map (fun s => entryOf m (s.idx, s.sim)) := he
    rcases List.mem_map.mp he' with ⟨s, hs, rfl⟩
    have hsheap : s ∈ m.heapFor q top_k := List.mem_reverse.mp hs
    have hsim := (heapFold_spec top_k (m.similarities q)).2.2.1 s hsheap
    have hidx := (mem_similarities hsim).1
    rw [h1] at hidx
    exact ⟨hidx, rfl⟩

/-- C8: for every query and every scored corpus row, the similarity the
code computes is the dot product divided by the product of the query norm
and the cached row norm, except that it is defined as 0 whenever that
product is 0, so division by a zero denominator never happens; when the
denominator is non-zero the similarity times the denominator recovers the
dot product. -/
theorem claim_C8_zero_denominator (m : TFIDFMatcher) (needle : String) (p : Nat × ℚ)
    (hp : p ∈ m.similarities needle) :
    (p.2 = if m.qNorm needle * m.haystack_norm.getD p.1 0 = 0 then 0
      else dotQ (m.haystack_tfidf.getD p.1 []) (m.needleVec needle)
        / (m.qNorm needle * m.haystack_norm.getD p.1 0))
    ∧ (m.qNorm needle * m.haystack_norm.getD p.1 0 = 0 → p.2 = 0)
    ∧ (m.qNorm needle * m.haystack_norm.getD p.1 0 ≠ 0 →
        p.2 * (m.qNorm needle * m.haystack_norm.getD p.1 0)
          = dotQ (m.haystack_tfidf.getD p.1 []) (m.needleVec needle)) := by
  have h2 := (mem_similarities hp).2
  simp only [TFIDFMatcher.simAt] at h2
  refine ⟨h2, ?_, ?_⟩
  · intro h0
    rw [h2, if_pos h0]
  · intro h0
    rw [h2, if_neg h0]
    exact div_mul_cancel₀ _ h0

/-- C7: every returned confidence, of find as well as of find_many, is the
two-decimal rounding of the full-precision similarity of its row, applied
after selection: the selected rows dominate every unselected row in
full-precision similarity, and the output order is descending in the
full-precision similarities themselves.  The hypothesis is the construction
invariant that the corpus matrix has one row per corpus entry. -/
theorem claim_C7_round_after_rank (m : TFIDFMatcher)
    (h1 : m.haystack_tfidf.length = m.haystack.length)
    (needle : String) (needles : List String) (top_k : Nat) :
    (∀ e ∈ (m.find needle top_k).«matches»,
      e.confidence = round_confidence (m.simAt needle e.haystack_idx)
      ∧ ∀ j, j < m.haystack.length →
          j ∉ (m.find needle top_k).«matches».map MatchEntry.haystack_idx →
          m.simAt needle j ≤ m.simAt needle e.haystack_idx)
    ∧ ((m.find needle top_k).«matches».Pairwise
        (fun a b => m.simAt needle b.haystack_idx ≤ m.simAt needle a.haystack_idx))
    ∧ (∀ nd ∈ m.find_many needles top_k, ∀ e ∈ nd.«matches»,
      e.confidence = round_confidence (m.simAt nd.needle e.haystack_idx)
      ∧ ∀ j, j < m.haystack.length →
          j ∉ nd.«matches».map MatchEntry.haystack_idx →
          m.simAt nd.needle j ≤ m.simAt nd.needle e.haystack_idx) := by
  have hperm := List.perm_insertionSort simGE (m.similarities needle)
  have hsorted : ((m.similarities needle).insertionSort simGE).Pairwise simGE :=
    List.sorted_insertionSort simGE _
  refine ⟨?_, ?_, ?_⟩
  · intro e he
    rw [find_matches_eq] at he
    rcases List.mem_map.mp he with ⟨p, hp, rfl⟩
    have hpS := List.mem_of_mem_take hp
    have hpsims := hperm.mem_iff.mp hpS
    have hp2 := (mem_similarities hpsims).2
    constructor
    · show round_confidence p.2 = round_confidence (m.simAt needle p.1)
      rw [hp2]
    · intro j hj hnot
      have hjrows : j < m.haystack_tfidf.length := by rw [h1]; exact hj
      have hjsims := similarities_mem m needle hjrows
      have hjS : (j, m.simAt needle j) ∈ (m.similarities needle).insertionSort simGE :=
        hperm.mem_iff.mpr hjsims
      rw [← List.take_append_drop (min top_k (m.similarities needle).length)
        ((m.similarities needle).insertionSort simGE)] at hjS
      rcases List.mem_append.mp hjS with hin | hin
      · exfalso
        apply hnot
        rw [find_matches_eq, List.map_map]
        exact List.mem_map.mpr ⟨(j, m.simAt needle j), hin, rfl⟩
      · have hpair := hsorted
        rw [← List.take_append_drop (min top_k (m.similarities needle).length)
          ((m.similarities needle).insertionSort simGE)] at hpair
        have hcross := (List.pairwise_append.mp hpair).2.2 p hp (j, m.simAt needle j) hin
        show m.simAt needle j ≤ m.simAt needle p.1
        rw [← hp2]
        exact hcross
  · rw [find_matches_eq, List.pairwise_map]
    have htake := List.Pairwise.sublist
      (List.take_sublist (min top_k (m.similarities needle).length)
        ((m.similarities needle).insertionSort simGE)) hsorted
    refine List.Pairwise.imp_of_mem ?_ htake
    intro a b ha hb hab
    have ha2 := (mem_similarities (hperm.mem_iff.mp (List.mem_of_mem_take ha))).2
    have hb2 := (mem_similarities (hperm.mem_iff.mp (List.mem_of_mem_take hb))).2
    show m.simAt needle b.1 ≤ m.simAt needle a.1
    rw [← ha2, ← hb2]
    exact hab
  · intro nd hnd e he
    rcases List.mem_map.mp hnd with ⟨q, _, rfl⟩
    have he' : e ∈ (m.heapFor q top_k).reverse.map (fun s => entryOf m (s.idx, s.sim)) := he
    rcases List.mem_map.mp he' with ⟨s, hsrev, rfl⟩
    have hsheap := List.mem_reverse.mp hsrev
    have hprov := (heapFold_spec top_k (m.similarities q)).2.2.1 s hsheap
    have hs2 := (mem_similarities hprov).2
    constructor
    · show round_confidence s.sim = round_confidence (m.simAt q s.idx)
      rw [← hs2]
    · intro j hj hnot
      have hjrows : j < m.haystack_tfidf.length := by rw [h1]; exact hj
      have hjsims := similarities_mem m q hjrows
      rcases (heapFold_spec top_k (m.similarities q)).2.2.2 (j, m.simAt q j) hjsims with
        hin | hub
      · exfalso
        apply hnot
        show j ∈ ((m.heapFor q top_k).reverse.map
          (fun s => entryOf m (s.idx, s.sim))).map MatchEntry.haystack_idx
        rw [List.map_map]
        exact List.mem_map.mpr ⟨Scored.mk (m.simAt q j) j, List.mem_reverse.mpr hin, rfl⟩
      · show m.simAt q j ≤ m.simAt q s.idx
        exact le_trans (hub s hsheap) (le_of_eq hs2)

/-- Witness for C5 on the concrete example matcher with top_k 3 against a
two-entry corpus. -/
theorem claim_C5_witness :
    (mEx.find "aa" 3).«matches».length = min 3 mEx.haystack.length :=
  (claim_C5_result_count mEx rfl "aa" ["aa"] 3).1

/-- Witness for C6 on the concrete example matcher, find_many branch. -/
theorem claim_C6_witness :
    ((mEx.findManyOne "aa" 2).«matches».map MatchEntry.confidence).Pairwise
      (fun a b => b ≤ a) :=
  (claim_C6_descending_confidence mEx "aa" ["aa"] 2).2 (mEx.findManyOne "aa" 2)
    (List.mem_singleton.mpr rfl)

/-- Witness for C7 on the concrete example matcher: the first returned
entry's confidence is the rounding of the full-precision similarity of its
row. -/
theorem claim_C7_witness :
    (MatchEntry.mk "aa" (1 / 2 : ℚ) 0).confidence
      = round_confidence (mEx.simAt "aa" (MatchEntry.mk "aa" (1 / 2 : ℚ) 0).haystack_idx) :=
  ((claim_C7_round_after_rank mEx rfl "aa" ["aa"] 2).1 (MatchEntry.mk "aa" (1 / 2 : ℚ) 0)
    (by with_unfolding_all decide)).1

/-- Witness for C8 on the concrete example matcher, scored pair of row 0. -/
theorem claim_C8_witness :
    ((0 : Nat), (1 / 2 : ℚ)).2
      = if mEx.qNorm "aa" * mEx.haystack_norm.getD ((0 : Nat), (1 / 2 : ℚ)).1 0 = 0 then 0
        else dotQ (mEx.haystack_tfidf.getD ((0 : Nat), (1 / 2 : ℚ)).1 []) (mEx.needleVec "aa")
          / (mEx.qNorm "aa" * mEx.haystack_norm.getD ((0 : Nat), (1 / 2 : ℚ)).1 0) :=
  (claim_C8_zero_denominator mEx "aa" (0, 1 / 2) (by with_unfolding_all decide)).1

/-- Witness for C10 on the concrete example matcher: the second returned
entry indexes corpus entry 1 and carries that corpus string. -/
theorem claim_C10_witness :
    (MatchEntry.mk "ab" (2 / 25 : ℚ) 1).haystack_idx < mEx.haystack.length
    ∧ (MatchEntry.mk "ab" (2 / 25 : ℚ) 1).haystack
        = mEx.haystack.getD (MatchEntry.mk "ab" (2 / 25 : ℚ) 1).haystack_idx "" :=
  (claim_C10_valid_indices mEx rfl "aa" ["aa"] 2).1 (MatchEntry.mk "ab" (2 / 25 : ℚ) 1)
    (by with_unfolding_all decide)
